import Mathlib

/-!
Verification of lithdew/nicehttp (shallow embedding).

The definitions below are translated from the Go sources of the repository:
`nicehttp.go` (the current client: `DoDeadline`, `QueryHeadersDeadline`,
`DownloadDeadline`, `DownloadSeriallyDeadline`, `DownloadInChunksDeadline`)
and `writer.go` (`WriterAtOffset`, `WriteBuffer`).  Go machine integers are
modelled as `Int` (no claim exercises 64-bit overflow), byte slices as
`List Nat`, and the HTTP transport as an abstract function from attempt
index and call shape to an outcome.
-/

/-! ## The feeding loop of `DownloadInChunksDeadline`

The Go producer is:

  var r ByteRange
  Feed:
  for r.End < length {
    r.End += c.ChunkSize
    if r.End > length { r.End = length }
    select {
    case ch <- r:
    case <-timeout:
      break Feed
    }
    r.Start += c.ChunkSize
    if r.Start > length { r.Start = length }
  }

`timeout` is a timer channel that is armed only when `-time.Since(deadline) > 0`;
otherwise it stays a nil channel and the `<-timeout` case can never fire.
We model the scheduler's choice of the `select` branch by a `stop` oracle:
at iteration `n`, the timeout branch is taken exactly when the timer is
`armed` and `stop n` is true.  The loop body is primitive recursion on
`fuel`; `feedFuel` supplies enough fuel that, for a positive chunk size, the
recursion is never cut short (each iteration advances `r.End` by
`chunkSize`, clamped to `length`).
-/

def feedLoop (length chunkSize : Int) (armed : Bool) (stop : Nat → Bool) :
    Nat → Nat → Int → Int → List (Int × Int)
  | 0, _, _, _ => []
  | fuel + 1, n, s, e =>
    if e < length then
      let e2 := if e + chunkSize > length then length else e + chunkSize
      if armed && stop n then
        []
      else
        let s2 := if s + chunkSize > length then length else s + chunkSize
        (s, e2) :: feedLoop length chunkSize armed stop fuel (n + 1) s2 e2
    else
      []

/-- Enough loop iterations for the feeding loop to run to completion when
`chunkSize > 0`. -/
def feedFuel (length chunkSize : Int) : Nat :=
  length.toNat / chunkSize.toNat + 1

/-- The byte ranges enqueued by the feeding loop when the timeout branch never
fires (the run in which the whole resource is dispatched). -/
def feedRanges (length chunkSize : Int) : List (Int × Int) :=
  feedLoop length chunkSize false (fun _ => false) (feedFuel length chunkSize) 0 0 0

/-- The byte ranges enqueued by the feeding loop under an arbitrary scheduler
oracle `stop` for the `select`'s timeout branch. -/
def feedRangesStopping (length chunkSize : Int) (armed : Bool) (stop : Nat → Bool) :
    List (Int × Int) :=
  feedLoop length chunkSize armed stop (feedFuel length chunkSize) 0 0 0

/-- Go: `if t := -time.Since(deadline); t > 0` — the timeout timer of
`DownloadInChunksDeadline` is armed iff the deadline lies strictly in the
future at the time of the call (`deadline - now > 0`). -/
def timerArmed (now deadline : Int) : Bool :=
  decide (0 < deadline - now)

/-- `HalfOpenChain s t rs` states that `rs` tiles the half-open interval
`[s, t)` by adjacent, strictly increasing half-open blocks `[Start, End)`:
the first block starts at `s`, each block's `End` is the next block's
`Start`, and the last block's `End` is `t`. -/
inductive HalfOpenChain : Int → Int → List (Int × Int) → Prop where
  | nil (e : Int) : HalfOpenChain e e []
  | cons (s e t : Int) (rs : List (Int × Int)) (hse : s < e)
      (h : HalfOpenChain e t rs) : HalfOpenChain s t ((s, e) :: rs)

theorem HalfOpenChain.start_le_end {s t : Int} {rs : List (Int × Int)}
    (h : HalfOpenChain s t rs) : s ≤ t := by
  induction h with
  | nil e => exact le_refl e
  | cons s e t rs hse _ ih => exact le_of_lt (lt_of_lt_of_le hse ih)

theorem HalfOpenChain.mem_bounds {s t : Int} {rs : List (Int × Int)}
    (h : HalfOpenChain s t rs) : ∀ r ∈ rs, s ≤ r.1 ∧ r.1 < r.2 ∧ r.2 ≤ t := by
  induction h with
  | nil e => intro r hr; cases hr
  | cons s e t rs hse h ih =>
    intro r hr
    rcases List.mem_cons.mp hr with hhead | htail
    · subst hhead
      exact ⟨le_refl s, hse, h.start_le_end⟩
    · rcases ih r htail with ⟨h1, h2, h3⟩
      exact ⟨le_trans (le_of_lt hse) h1, h2, h3⟩

theorem HalfOpenChain.countP_eq_one {s t : Int} {rs : List (Int × Int)}
    (h : HalfOpenChain s t rs) :
    ∀ k : Int, s ≤ k → k < t →
      rs.countP (fun r => decide (r.1 ≤ k ∧ k < r.2)) = 1 := by
  induction h with
  | nil e =>
    intro k hk1 hk2
    exact absurd (lt_of_le_of_lt hk1 hk2) (lt_irrefl e)
  | cons s e t rs hse h ih =>
    intro k hk1 hk2
    rw [List.countP_cons]
    by_cases hke : k < e
    · have hzero : rs.countP (fun r => decide (r.1 ≤ k ∧ k < r.2)) = 0 := by
        rw [List.countP_eq_zero]
        intro r hr
        have := h.mem_bounds r hr
        simp only [decide_eq_true_eq]
        intro hcontra
        exact absurd (lt_of_lt_of_le hke this.1) (not_lt.mpr hcontra.1)
      rw [hzero]
      simp [hk1, hke]
    · have hhead : decide ((s, e).1 ≤ k ∧ k < (s, e).2) = false := by
        simp only [decide_eq_false_iff_not]
        intro hcontra
        exact hke hcontra.2
      rw [hhead]
      simpa using ih k (le_of_not_lt hke) hk2

theorem HalfOpenChain.getLast_end {s t : Int} {rs : List (Int × Int)}
    (h : HalfOpenChain s t rs) (hlt : s < t) :
    ∃ r, rs.getLast? = some r ∧ r.2 = t := by
  induction h with
  | nil e => exact absurd hlt (lt_irrefl e)
  | cons s e t rs hse h ih =>
    cases rs with
    | nil =>
      cases h
      exact ⟨(s, e), rfl, rfl⟩
    | cons hd tl =>
      have hmem := h.mem_bounds hd (List.mem_cons_self hd tl)
      have het : e < t := lt_of_lt_of_le (lt_of_le_of_lt hmem.1 hmem.2.1) hmem.2.2
      rcases ih het with ⟨r, hr1, hr2⟩
      exact ⟨r, by rw [List.getLast?_cons_cons]; exact hr1, hr2⟩

theorem HalfOpenChain.head_start {s t : Int} {rs : List (Int × Int)}
    (h : HalfOpenChain s t rs) (hlt : s < t) :
    ∃ e rest, rs = (s, e) :: rest := by
  cases h with
  | nil => exact absurd hlt (lt_irrefl _)
  | cons s e t rs hse h => exact ⟨e, rs, rfl⟩

/-- When the stop branch is never taken (unarmed timer), the feeding loop
started at `s = e` tiles `[e, length)` by adjacent half-open blocks, provided
the fuel bound `length ≤ e + chunkSize * fuel` holds. -/
theorem feedLoop_chain (length c : Int) (stop : Nat → Bool) (hc : 0 < c) :
    ∀ (fuel : Nat) (n : Nat) (e : Int), 0 ≤ e → e ≤ length →
      length ≤ e + c * (fuel : Int) →
      HalfOpenChain e length (feedLoop length c false stop fuel n e e) := by
  intro fuel
  induction fuel with
  | zero =>
    intro n e he0 hel hfuel
    have : e = length := by
      simp only [Nat.cast_zero, mul_zero, add_zero] at hfuel
      exact le_antisymm hel hfuel
    subst this
    simpa [feedLoop] using HalfOpenChain.nil e
  | succ fuel ih =>
    intro n e he0 hel hfuel
    by_cases he : e < length
    · have hunfold : feedLoop length c false stop (fuel + 1) n e e
          = (e, if e + c > length then length else e + c) ::
            feedLoop length c false stop fuel (n + 1)
              (if e + c > length then length else e + c)
              (if e + c > length then length else e + c) := by
        simp [feedLoop, he]
      rw [hunfold]
      set e2 := if e + c > length then length else e + c with he2def
      have he2_lt : e < e2 := by
        rw [he2def]
        by_cases hcase : e + c > length
        · simpa [hcase] using he
        · simpa [hcase] using hc
      have he2_le : e2 ≤ length := by
        rw [he2def]
        by_cases hcase : e + c > length
        · simp [hcase]
        · simpa [hcase] using le_of_not_lt hcase
      have he2_0 : 0 ≤ e2 := le_trans he0 (le_of_lt he2_lt)
      have hfuel2 : length ≤ e2 + c * (fuel : Int) := by
        rw [he2def]
        by_cases hcase : e + c > length
        · have : 0 ≤ c * (fuel : Int) := by positivity
          simp only [hcase, if_pos]
          linarith
        · simp only [hcase, if_neg, not_false_iff]
          have hexp : e + c * ((fuel : Int) + 1) = (e + c) + c * (fuel : Int) := by ring
          have : ((fuel + 1 : Nat) : Int) = (fuel : Int) + 1 := by push_cast; ring
          rw [this, hexp] at hfuel
          exact hfuel
      exact HalfOpenChain.cons e e2 length _ he2_lt (ih (n + 1) e2 he2_0 he2_le hfuel2)
    · have heq : e = length := le_antisymm hel (le_of_not_lt he)
      rw [heq]
      simpa [feedLoop, lt_irrefl] using HalfOpenChain.nil length

/-- `feedFuel` provides enough fuel: `length ≤ 0 + chunkSize * feedFuel`. -/
theorem feedFuel_sufficient (length c : Int) (hl : 0 < length) (hc : 0 < c) :
    length ≤ 0 + c * ((feedFuel length c : Nat) : Int) := by
  have hCpos : 0 < c.toNat := by omega
  have hkey : length.toNat < feedFuel length c * c.toNat := by
    unfold feedFuel
    have hdm := Nat.div_add_mod length.toNat c.toNat
    have hmlt := Nat.mod_lt length.toNat hCpos
    calc length.toNat = c.toNat * (length.toNat / c.toNat) + length.toNat % c.toNat := hdm.symm
      _ < c.toNat * (length.toNat / c.toNat) + c.toNat := by omega
      _ = (length.toNat / c.toNat + 1) * c.toNat := by ring
  have h2 : ((length.toNat : Nat) : Int) < ((feedFuel length c : Nat) : Int) * ((c.toNat : Nat) : Int) := by
    exact_mod_cast hkey
  have hLen : ((length.toNat : Nat) : Int) = length := Int.toNat_of_nonneg (le_of_lt hl)
  have hC : ((c.toNat : Nat) : Int) = c := Int.toNat_of_nonneg (le_of_lt hc)
  rw [hLen, hC, mul_comm] at h2
  linarith [h2]

/-- Amended C1.  For every `length > 0` and `chunkSize > 0`, the `(Start, End)`
pairs produced by the feeding loop tile `[0, length)` as adjacent half-open
intervals: read as `[Start, End)` they cover every byte index of
`[0, length)` exactly once with no gaps and no overlaps, and the last
produced range's `End` equals `length` itself (not `length - 1`).  Since the
pairs are handed to the inclusive wire convention (`SetByteRange`), each
emitted wire range covers one byte past its half-open block. -/
theorem feedRanges_half_open_tiling (length c : Int) (hl : 0 < length) (hc : 0 < c) :
    HalfOpenChain 0 length (feedRanges length c)
    ∧ (∀ k : Int, 0 ≤ k → k < length →
        (feedRanges length c).countP (fun r => decide (r.1 ≤ k ∧ k < r.2)) = 1)
    ∧ (∃ e rest, feedRanges length c = (0, e) :: rest)
    ∧ (∃ r, (feedRanges length c).getLast? = some r ∧ r.2 = length) := by
  have hchain : HalfOpenChain 0 length (feedRanges length c) :=
    feedLoop_chain length c (fun _ => false) hc (feedFuel length c) 0 0
      (le_refl 0) (le_of_lt hl) (feedFuel_sufficient length c hl hc)
  exact ⟨hchain, hchain.countP_eq_one, hchain.head_start hl, hchain.getLast_end hl⟩

/-- Witness for `feedRanges_half_open_tiling` at `length = 5`, `chunkSize = 2`. -/
theorem feedRanges_half_open_tiling_witness :
    HalfOpenChain 0 5 (feedRanges 5 2)
    ∧ (∀ k : Int, 0 ≤ k → k < 5 →
        (feedRanges 5 2).countP (fun r => decide (r.1 ≤ k ∧ k < r.2)) = 1)
    ∧ (∃ e rest, feedRanges 5 2 = (0, e) :: rest)
    ∧ (∃ r, (feedRanges 5 2).getLast? = some r ∧ r.2 = 5) :=
  feedRanges_half_open_tiling 5 2 (by decide) (by decide)

/-- Counterexample to C1 as stated: at `length = 25000000`,
`chunkSize = 10000000` the feeding loop emits `(0, 10000000)`,
`(10000000, 20000000)`, `(20000000, 25000000)` — under the inclusive wire
convention these are not `[0,9999999], [10000000,19999999],
[20000000,24999999]`, and the last produced range ends at `length`, not
`length - 1`. -/
theorem feedRanges_inclusive_example_refuted :
    feedRanges 25000000 10000000
      = [(0, 10000000), (10000000, 20000000), (20000000, 25000000)]
    ∧ feedRanges 25000000 10000000
      ≠ [(0, 9999999), (10000000, 19999999), (20000000, 24999999)]
    ∧ (feedRanges 25000000 10000000).getLast? ≠ some (20000000, 24999999) := by
  refine ⟨by decide, by decide, by decide⟩

/-! ## The redirect-following executor `DoDeadline`

Go (nicehttp.go):

  for i := 0; i <= c.MaxRedirectCount; i++ {
    if deadline.IsZero() { err = c.Instance.Do(req, res) }
    else { err = c.Instance.DoDeadline(req, res, deadline) }
    if err != nil { return err }
    if !fasthttp.StatusCodeIsRedirect(res.StatusCode()) { return nil }
    location := res.Header.Peek("Location")
    if len(location) == 0 { return errors.New("missing 'Location' header after redirect") }
    req.URI().UpdateBytes(location)
    res.Reset()
  }
  return errors.New("redirected too many times")

The transport is abstract: a function from the attempt index and the call
shape (unbounded `Do` versus deadline-bound `DoDeadline`) to an outcome.  A
deadline is an absolute instant modelled as a `Nat`, with `0` standing for
the zero `time.Time`.  The executor returns its result together with the
list of call shapes of the transport calls it made (one per attempt), which
makes the number of attempts and the shape of each attempt observable.
-/

/-- The parts of a `fasthttp.Response` that nicehttp inspects: the status
code, the `Location`, `Content-Length` and `Accept-Ranges` headers (an empty
`location` models an absent header, as `Peek` returns an empty slice), and
the body bytes. -/
structure Response where
  status : Nat
  location : String
  contentLength : Int
  acceptRanges : String
  body : List Nat
deriving DecidableEq

/-- Outcome of one transport exchange: an opaque error or a response. -/
inductive TransportOutcome where
  | err (msg : String)
  | ok (res : Response)
deriving DecidableEq

/-- The errors nicehttp produces, with `fmt.Errorf("...: %w")` wrapping
modelled by constructors that record the context added at each wrap site. -/
inductive NiceError where
  | transportErr (msg : String)
  | missingLocationHeader
  | tooManyRedirects
  | serialDownloadFailed (url : String) (cause : NiceError)
  | chunkedDownloadFailed (url : String) (cause : NiceError)
deriving DecidableEq

/-- Result of `DoDeadline`: on success the request's final target URI (after
all `req.URI().UpdateBytes(location)` updates) and the populated response. -/
inductive DoResult where
  | success (finalURI : String) (res : Response)
  | failure (e : NiceError)
deriving DecidableEq

/-- Which call shape of the `Transport` interface an attempt goes through. -/
inductive CallShape where
  | unbounded
  | withDeadline (d : Nat)
deriving DecidableEq

/-- Go: `if deadline.IsZero() { c.Instance.Do(...) } else
{ c.Instance.DoDeadline(..., deadline) }`. -/
def callShape (deadline : Nat) : CallShape :=
  if deadline == 0 then CallShape.unbounded else CallShape.withDeadline deadline

/-- fasthttp's `StatusCodeIsRedirect`: 301, 302, 303, 307 or 308. -/
def statusCodeIsRedirect (statusCode : Nat) : Bool :=
  statusCode == 301 || statusCode == 302 || statusCode == 303 ||
    statusCode == 307 || statusCode == 308

/-- The body of `DoDeadline`'s loop: `budget` counts the remaining loop
iterations (`MaxRedirectCount + 1` at the start, `tooManyRedirects` when
exhausted), `i` is the attempt index and `uri` the request's current target
URI. -/
def doDeadlineAux (transport : Nat → CallShape → TransportOutcome) (deadline : Nat) :
    Nat → Nat → String → DoResult × List CallShape
  | 0, _, _ => (DoResult.failure NiceError.tooManyRedirects, [])
  | budget + 1, i, uri =>
    match transport i (callShape deadline) with
    | TransportOutcome.err msg =>
      (DoResult.failure (NiceError.transportErr msg), [callShape deadline])
    | TransportOutcome.ok res =>
      if statusCodeIsRedirect res.status then
        if res.location.length == 0 then
          (DoResult.failure NiceError.missingLocationHeader, [callShape deadline])
        else
          let rest := doDeadlineAux transport deadline budget (i + 1) res.location
          (rest.1, callShape deadline :: rest.2)
      else
        (DoResult.success uri res, [callShape deadline])

/-- nicehttp's `(*Client).DoDeadline`. -/
def doDeadline (transport : Nat → CallShape → TransportOutcome)
    (maxRedirectCount deadline : Nat) (uri : String) : DoResult × List CallShape :=
  doDeadlineAux transport deadline (maxRedirectCount + 1) 0 uri

/-- `RedirectHop transport loc i` states that attempt `i` of `transport`
deterministically yields a redirect-class response whose `Location` header is
the nonempty `loc i`. -/
def RedirectHop (transport : Nat → CallShape → TransportOutcome)
    (loc : Nat → String) (i : Nat) : Prop :=
  ∃ r, (∀ sh, transport i sh = TransportOutcome.ok r) ∧
    statusCodeIsRedirect r.status = true ∧ r.location = loc i ∧ (loc i).length ≠ 0

/-- Stepping lemma: `n` consecutive redirect hops starting at attempt `j`
consume `n` units of budget, update the URI to the last location seen, and
prepend `n` call-shape records. -/
theorem doDeadlineAux_chain_shift (transport : Nat → CallShape → TransportOutcome)
    (deadline : Nat) (loc : Nat → String) :
    ∀ (n b j : Nat) (uri : String),
      (∀ i, i < n → RedirectHop transport loc (j + i)) →
      doDeadlineAux transport deadline (n + b) j uri
        = ((doDeadlineAux transport deadline b (j + n)
              (if n = 0 then uri else loc (j + n - 1))).1,
           List.replicate n (callShape deadline)
             ++ (doDeadlineAux transport deadline b (j + n)
                  (if n = 0 then uri else loc (j + n - 1))).2) := by
  intro n
  induction n with
  | zero =>
    intro b j uri _
    simp
  | succ n ih =>
    intro b j uri hred
    rcases hred 0 (Nat.succ_pos n) with ⟨r, htr, hredir, hloc, hlen⟩
    simp only [Nat.add_zero] at htr hloc hlen
    have hlenne : ¬ (r.location.length = 0) := by rw [hloc]; exact hlen
    have harith : n + 1 + b = (n + b) + 1 := by omega
    have hstep : doDeadlineAux transport deadline (n + 1 + b) j uri
        = ((doDeadlineAux transport deadline (n + b) (j + 1) (loc j)).1,
           callShape deadline
             :: (doDeadlineAux transport deadline (n + b) (j + 1) (loc j)).2) := by
      rw [harith]
      simp [doDeadlineAux, htr, hredir, hloc, hlen]
    have hshift : ∀ i, i < n → RedirectHop transport loc (j + 1 + i) := by
      intro i hi
      have hswap : j + 1 + i = j + (i + 1) := by omega
      rw [hswap]
      exact hred (i + 1) (by omega)
    have hrw := ih b (j + 1) (loc j) hshift
    have hidx : j + 1 + n = j + (n + 1) := by omega
    have hloc_eq : (if n = 0 then loc j else loc (j + 1 + n - 1)) = loc (j + (n + 1) - 1) := by
      cases n with
      | zero => simp
      | succ m =>
        have h1 : j + 1 + (m + 1) - 1 = j + (m + 1) := by omega
        have h2 : j + (m + 1 + 1) - 1 = j + (m + 1) := by omega
        simp only [Nat.succ_ne_zero, if_neg, not_false_iff, h1, h2]
    rw [hstep, hrw, hloc_eq, hidx]
    simp [List.replicate_succ]

/-- C2.  A chain of `N` redirect responses (each with a nonempty `Location`)
followed by a non-redirect response: if `N ≤ MaxRedirectCount`, `DoDeadline`
succeeds with the request's final target URI equal to the last `Location`,
after `N + 1` transport attempts; if the chain supplies
`MaxRedirectCount + 1` redirect responses, `DoDeadline` returns the
too-many-redirects error after exactly `MaxRedirectCount + 1` transport
attempts (hence at most `MaxRedirectCount + 1`). -/
theorem doDeadline_redirect_chain (transport : Nat → CallShape → TransportOutcome)
    (maxRedirectCount deadline N : Nat) (uri0 : String) (loc : Nat → String) (res : Response)
    (hred : ∀ i, i < N → RedirectHop transport loc i) :
    (N ≤ maxRedirectCount → (∀ sh, transport N sh = TransportOutcome.ok res) →
        statusCodeIsRedirect res.status = false →
        doDeadline transport maxRedirectCount deadline uri0
          = (DoResult.success (if N = 0 then uri0 else loc (N - 1)) res,
             List.replicate (N + 1) (callShape deadline)))
    ∧ (N = maxRedirectCount + 1 →
        (doDeadline transport maxRedirectCount deadline uri0).1
            = DoResult.failure NiceError.tooManyRedirects
        ∧ (doDeadline transport maxRedirectCount deadline uri0).2.length
            = maxRedirectCount + 1) := by
  have hshift0 : ∀ i, i < N → RedirectHop transport loc (0 + i) := by
    intro i hi; simpa using hred i hi
  constructor
  · intro hle htr hnred
    unfold doDeadline
    have hsplit : maxRedirectCount + 1 = N + ((maxRedirectCount - N) + 1) := by omega
    rw [hsplit, doDeadlineAux_chain_shift transport deadline loc N
      ((maxRedirectCount - N) + 1) 0 uri0 hshift0]
    simp [doDeadlineAux, htr, hnred, List.replicate_succ']
  · intro heq
    unfold doDeadline
    have hsplit : maxRedirectCount + 1 = N + 0 := by omega
    rw [hsplit, doDeadlineAux_chain_shift transport deadline loc N 0 0 uri0 hshift0]
    simp [doDeadlineAux]

/-- C3.  If attempts `0 .. j-1` are redirects with nonempty `Location`s and
attempt `j ≤ MaxRedirectCount` yields a redirect-class response whose
`Location` header is absent (empty), `DoDeadline` fails with the
missing-location error having made exactly `j + 1` transport attempts — no
further attempts follow the offending response. -/
theorem doDeadline_missing_location (transport : Nat → CallShape → TransportOutcome)
    (maxRedirectCount deadline j : Nat) (uri0 : String) (loc : Nat → String) (res : Response)
    (hred : ∀ i, i < j → RedirectHop transport loc i)
    (hj : j ≤ maxRedirectCount)
    (htr : ∀ sh, transport j sh = TransportOutcome.ok res)
    (hredir : statusCodeIsRedirect res.status = true)
    (hloc : res.location.length = 0) :
    (doDeadline transport maxRedirectCount deadline uri0).1
        = DoResult.failure NiceError.missingLocationHeader
    ∧ (doDeadline transport maxRedirectCount deadline uri0).2.length = j + 1 := by
  have hshift0 : ∀ i, i < j → RedirectHop transport loc (0 + i) := by
    intro i hi; simpa using hred i hi
  unfold doDeadline
  have hsplit : maxRedirectCount + 1 = j + ((maxRedirectCount - j) + 1) := by omega
  rw [hsplit, doDeadlineAux_chain_shift transport deadline loc j
    ((maxRedirectCount - j) + 1) 0 uri0 hshift0]
  simp [doDeadlineAux, htr, hredir, hloc]

/-- Every call-shape record produced by the executor loop is the shape
dictated by the supplied deadline. -/
theorem doDeadlineAux_shapes (transport : Nat → CallShape → TransportOutcome) (deadline : Nat) :
    ∀ (b i : Nat) (uri : String) (sh : CallShape),
      sh ∈ (doDeadlineAux transport deadline b i uri).2 → sh = callShape deadline := by
  intro b
  induction b with
  | zero =>
    intro i uri sh h
    simp [doDeadlineAux] at h
  | succ b ih =>
    intro i uri sh h
    cases htr : transport i (callShape deadline) with
    | err msg =>
      simp [doDeadlineAux, htr] at h
      exact h
    | ok res =>
      by_cases hr : statusCodeIsRedirect res.status = true
      · by_cases hl : res.location.length = 0
        · simp [doDeadlineAux, htr, hr, hl] at h
          exact h
        · simp [doDeadlineAux, htr, hr, hl] at h
          rcases h with h | h
          · exact h
          · exact ih (i + 1) res.location sh h
      · simp [doDeadlineAux, htr, hr] at h
        exact h

/-- C6.  If the supplied deadline is the zero value, every transport attempt
of `DoDeadline` goes through the unbounded call shape (`Do`); otherwise every
attempt is bounded by exactly the supplied absolute deadline
(`DoDeadline(..., deadline)`). -/
theorem doDeadline_call_shapes (transport : Nat → CallShape → TransportOutcome)
    (maxRedirectCount deadline : Nat) (uri : String) :
    (deadline = 0 → ∀ sh ∈ (doDeadline transport maxRedirectCount deadline uri).2,
        sh = CallShape.unbounded)
    ∧ (deadline ≠ 0 → ∀ sh ∈ (doDeadline transport maxRedirectCount deadline uri).2,
        sh = CallShape.withDeadline deadline) := by
  constructor
  · intro h0 sh hmem
    have hsh := doDeadlineAux_shapes transport deadline (maxRedirectCount + 1) 0 uri sh hmem
    rw [hsh, callShape, h0]
    simp
  · intro hne sh hmem
    have hsh := doDeadlineAux_shapes transport deadline (maxRedirectCount + 1) 0 uri sh hmem
    rw [hsh, callShape]
    simp [hne]

/-- A 200-class response with no headers of interest, for witnesses. -/
def rOkW : Response := ⟨200, "", 0, "", []⟩

/-- A 301 redirect whose `Location` points at a second URL, for witnesses. -/
def rRedW : Response := ⟨301, "http://x/1", 0, "", []⟩

/-- A 302 redirect whose `Location` header is absent, for witnesses. -/
def rRedNoLocW : Response := ⟨302, "", 0, "", []⟩

/-- A transport serving one redirect then a success, for witnesses. -/
def chainTransportW : Nat → CallShape → TransportOutcome :=
  fun i _ => if i = 0 then TransportOutcome.ok rRedW else TransportOutcome.ok rOkW

/-- A transport answering every attempt with a redirect, for witnesses. -/
def allRedirectTransportW : Nat → CallShape → TransportOutcome :=
  fun _ _ => TransportOutcome.ok rRedW

/-- Witness for `doDeadline_redirect_chain`: one redirect then success with
`maxRedirectCount = 2`, and an infinite redirect chain exhausting the budget. -/
theorem doDeadline_redirect_chain_witness :
    doDeadline chainTransportW 2 0 "u"
      = (DoResult.success "http://x/1" rOkW, [CallShape.unbounded, CallShape.unbounded])
    ∧ (doDeadline allRedirectTransportW 2 0 "u").1 = DoResult.failure NiceError.tooManyRedirects
    ∧ (doDeadline allRedirectTransportW 2 0 "u").2.length = 3 := by
  have hred : ∀ i, i < 1 → RedirectHop chainTransportW (fun _ => "http://x/1") i := by
    intro i hi
    have h0 : i = 0 := by omega
    subst h0
    exact ⟨rRedW, fun sh => rfl, rfl, rfl, by decide⟩
  have h1 := (doDeadline_redirect_chain chainTransportW 2 0 1 "u"
      (fun _ => "http://x/1") rOkW hred).1 (by omega) (fun sh => rfl) rfl
  have hred2 : ∀ i, i < 3 → RedirectHop allRedirectTransportW (fun _ => "http://x/1") i := by
    intro i _
    exact ⟨rRedW, fun sh => rfl, rfl, rfl,
      (by decide : ("http://x/1" : String).length ≠ 0)⟩
  have h2 := (doDeadline_redirect_chain allRedirectTransportW 2 0 3 "u"
      (fun _ => "http://x/1") rOkW hred2).2 rfl
  refine ⟨?_, h2.1, h2.2⟩
  simpa [callShape, List.replicate] using h1

/-- A transport serving one good redirect then a redirect with no
`Location`, for witnesses. -/
def missingLocTransportW : Nat → CallShape → TransportOutcome :=
  fun i _ => if i = 0 then TransportOutcome.ok rRedW else TransportOutcome.ok rRedNoLocW

/-- Witness for `doDeadline_missing_location`: the offending response arrives
on attempt 1 of a budget of 3, and the call stops after 2 attempts. -/
theorem doDeadline_missing_location_witness :
    (doDeadline missingLocTransportW 2 0 "u").1
        = DoResult.failure NiceError.missingLocationHeader
    ∧ (doDeadline missingLocTransportW 2 0 "u").2.length = 2 := by
  have hred : ∀ i, i < 1 → RedirectHop missingLocTransportW (fun _ => "http://x/1") i := by
    intro i hi
    have h0 : i = 0 := by omega
    subst h0
    exact ⟨rRedW, fun sh => rfl, rfl, rfl, by decide⟩
  exact doDeadline_missing_location missingLocTransportW 2 0 1 "u"
    (fun _ => "http://x/1") rRedNoLocW hred (by omega) (fun sh => rfl) rfl rfl

/-- A transport that succeeds immediately, for witnesses. -/
def idleTransportW : Nat → CallShape → TransportOutcome :=
  fun _ _ => TransportOutcome.ok rOkW

/-- Witness for `doDeadline_call_shapes` at deadline `0` and deadline `7`. -/
theorem doDeadline_call_shapes_witness :
    (∀ sh ∈ (doDeadline idleTransportW 2 0 "u").2, sh = CallShape.unbounded)
    ∧ (∀ sh ∈ (doDeadline idleTransportW 2 7 "u").2, sh = CallShape.withDeadline 7) :=
  ⟨(doDeadline_call_shapes idleTransportW 2 0 "u").1 rfl,
   (doDeadline_call_shapes idleTransportW 2 7 "u").2 (by decide)⟩

/-! ## `QueryHeadersDeadline`, `DownloadDeadline`, `DownloadSeriallyDeadline` -/

/-- `QueryHeadersDeadline`: issue a HEAD request through the executor; on any
executor failure leave the zero values `(0, false)`; on success clamp the
parsed content length at `0` and compare the `Accept-Ranges` header against
the literal `"bytes"`.  No error is ever returned (the return type has no
error component, as in Go). -/
def queryHeadersDeadline (transport : Nat → CallShape → TransportOutcome)
    (maxRedirectCount deadline : Nat) (url : String) : Int × Bool :=
  match doDeadline transport maxRedirectCount deadline url with
  | (DoResult.success _ res, _) =>
    (if res.contentLength ≤ 0 then 0 else res.contentLength, res.acceptRanges == "bytes")
  | (DoResult.failure _, _) => (0, false)

/-- C4.  The header prober never surfaces an error: when the underlying
request fails it returns `(0, false)`; when it succeeds it returns content
length `0` whenever the parsed content length is non-positive (missing or
negative header), the parsed value otherwise, and `acceptsRanges` is true
iff the `Accept-Ranges` header equals the literal `"bytes"`. -/
theorem queryHeaders_contract (transport : Nat → CallShape → TransportOutcome)
    (maxRedirectCount deadline : Nat) (url : String) :
    (∀ u res tr,
        doDeadline transport maxRedirectCount deadline url = (DoResult.success u res, tr) →
        ((res.contentLength ≤ 0 →
            (queryHeadersDeadline transport maxRedirectCount deadline url).1 = 0)
          ∧ (0 < res.contentLength →
            (queryHeadersDeadline transport maxRedirectCount deadline url).1
              = res.contentLength)
          ∧ ((queryHeadersDeadline transport maxRedirectCount deadline url).2 = true
              ↔ res.acceptRanges = "bytes")))
    ∧ (∀ e tr,
        doDeadline transport maxRedirectCount deadline url = (DoResult.failure e, tr) →
        queryHeadersDeadline transport maxRedirectCount deadline url = (0, false)) := by
  constructor
  · intro u res tr h
    refine ⟨?_, ?_, ?_⟩
    · intro hle
      simp [queryHeadersDeadline, h, hle]
    · intro hpos
      simp [queryHeadersDeadline, h, not_le.mpr hpos]
    · simp [queryHeadersDeadline, h]
  · intro e tr h
    simp [queryHeadersDeadline, h]

/-- A HEAD response advertising range support and a 5-byte length, for
witnesses. -/
def qResW : Response := ⟨200, "", 5, "bytes", []⟩

/-- A transport answering every attempt with `qResW`, for witnesses. -/
def qTransportW : Nat → CallShape → TransportOutcome :=
  fun _ _ => TransportOutcome.ok qResW

/-- A transport failing every attempt, for the prober witness. -/
def qFailTransportW : Nat → CallShape → TransportOutcome :=
  fun _ _ => TransportOutcome.err "boom"

/-- Witness for `queryHeaders_contract`: a successful probe reports `(5, true)`
and a failing probe degrades to `(0, false)`. -/
theorem queryHeaders_contract_witness :
    (queryHeadersDeadline qTransportW 3 0 "u").1 = 5
    ∧ ((queryHeadersDeadline qTransportW 3 0 "u").2 = true ↔ qResW.acceptRanges = "bytes")
    ∧ queryHeadersDeadline qFailTransportW 3 0 "u" = (0, false) := by
  have h := (queryHeaders_contract qTransportW 3 0 "u").1 "u" qResW [callShape 0] rfl
  have h2 := (queryHeaders_contract qFailTransportW 3 0 "u").2
    (NiceError.transportErr "boom") [callShape 0] rfl
  exact ⟨h.2.1 (by decide), h.2.2, h2⟩

/-- Which sub-call `DownloadDeadline` makes, from nicehttp.go:

  if c.AcceptsRanges && acceptsRanges {
    if contentLength <= 0 { return fmt.Errorf("content length is %d - ...") }
    return c.DownloadInChunksDeadline(...)
  }
  return c.DownloadSeriallyDeadline(...)
-/
inductive DownloadAction where
  | failUnknownLength (contentLength : Int)
  | chunked (contentLength : Int)
  | serial
deriving DecidableEq

/-- The dispatch logic of `DownloadDeadline`. -/
def downloadDeadlineAction (clientAcceptsRanges acceptsRanges : Bool)
    (contentLength : Int) : DownloadAction :=
  if clientAcceptsRanges && acceptsRanges then
    if contentLength ≤ 0 then DownloadAction.failUnknownLength contentLength
    else DownloadAction.chunked contentLength
  else DownloadAction.serial

/-- Counterexample to C5 as stated: with both accepts-ranges flags true and
probed `contentLength = 0`, `DownloadDeadline` returns the content-length
error instead of taking the serial path. -/
theorem download_zero_length_not_serial :
    downloadDeadlineAction true true 0 = DownloadAction.failUnknownLength 0
    ∧ downloadDeadlineAction true true 0 ≠ DownloadAction.serial :=
  ⟨by decide, by decide⟩

/-- Amended C5.  The serial path is taken exactly when the client's
`AcceptsRanges` flag and the probed `acceptsRanges` are not both true
(in particular whenever the probe failed, since failure reports
`acceptsRanges = false`); when both flags are true, a non-positive
`contentLength` yields the content-length error — not the serial fallback —
and a positive one yields the chunked path. -/
theorem download_path_dispatch (ca ar : Bool) (cl : Int) :
    (¬(ca = true ∧ ar = true) → downloadDeadlineAction ca ar cl = DownloadAction.serial)
    ∧ (ca = true → ar = true → cl ≤ 0 →
        downloadDeadlineAction ca ar cl = DownloadAction.failUnknownLength cl)
    ∧ (ca = true → ar = true → 0 < cl →
        downloadDeadlineAction ca ar cl = DownloadAction.chunked cl) := by
  refine ⟨?_, ?_, ?_⟩
  · intro h
    have hb : (ca && ar) = false := by
      cases ca <;> cases ar <;> simp_all
    simp [downloadDeadlineAction, hb]
  · intro hca har hle
    subst hca
    subst har
    simp [downloadDeadlineAction, hle]
  · intro hca har hpos
    subst hca
    subst har
    simp [downloadDeadlineAction, not_le.mpr hpos]

/-- Witness for `download_path_dispatch` at each of the three branches. -/
theorem download_path_dispatch_witness :
    downloadDeadlineAction false true 7 = DownloadAction.serial
    ∧ downloadDeadlineAction true true 0 = DownloadAction.failUnknownLength 0
    ∧ downloadDeadlineAction true true 7 = DownloadAction.chunked 7 :=
  ⟨(download_path_dispatch false true 7).1 (by simp),
   (download_path_dispatch true true 0).2.1 rfl rfl (by decide),
   (download_path_dispatch true true 7).2.2 rfl rfl (by decide)⟩

/-- `DownloadSeriallyDeadline`: one GET through the executor; on failure wrap
the error with the URL and leave the sink untouched; on success stream the
body into the sink (`res.BodyWriteTo(w)`, modelled as appending the body as
one write to the sink's write log). -/
def downloadSeriallyDeadline (transport : Nat → CallShape → TransportOutcome)
    (maxRedirectCount deadline : Nat) (url : String) (sink : List (List Nat)) :
    Option NiceError × List (List Nat) :=
  match doDeadline transport maxRedirectCount deadline url with
  | (DoResult.success _ res, _) => (none, sink ++ [res.body])
  | (DoResult.failure e, _) => (some (NiceError.serialDownloadFailed url e), sink)

/-- C7.  Against a transport that fails every request,
`DownloadSeriallyDeadline` returns the transport error wrapped with the URL
and performs no write: the sink is returned exactly as it was. -/
theorem downloadSerially_failing_transport (transport : Nat → CallShape → TransportOutcome)
    (maxRedirectCount deadline : Nat) (url : String) (sink : List (List Nat)) (msg : String)
    (hfail : ∀ i sh, transport i sh = TransportOutcome.err msg) :
    downloadSeriallyDeadline transport maxRedirectCount deadline url sink
      = (some (NiceError.serialDownloadFailed url (NiceError.transportErr msg)), sink) := by
  have hdo : doDeadline transport maxRedirectCount deadline url
      = (DoResult.failure (NiceError.transportErr msg), [callShape deadline]) := by
    unfold doDeadline
    simp [doDeadlineAux, hfail]
  simp [downloadSeriallyDeadline, hdo]

/-- An always-failing transport, for the serial-download witness. -/
def failTransportW : Nat → CallShape → TransportOutcome :=
  fun _ _ => TransportOutcome.err "boom"

/-- Witness for `downloadSerially_failing_transport`: a one-entry sink is
returned unchanged next to the wrapped error. -/
theorem downloadSerially_failing_transport_witness :
    downloadSeriallyDeadline failTransportW 16 0 "http://a" [[7]]
      = (some (NiceError.serialDownloadFailed "http://a" (NiceError.transportErr "boom")),
         [[7]]) :=
  downloadSerially_failing_transport failTransportW 16 0 "http://a" [[7]] "boom"
    (fun _ _ => rfl)

/-! ## Aggregation of worker results in `DownloadInChunksDeadline`

`g.Wait()` from errgroup blocks until every worker routine has returned and
yields the first non-nil error recorded (its `errOnce`).  We model the
worker results as the list of each worker's returned `Option NiceError`
in completion order; the aggregate is computed over that complete list. -/

/-- The first non-nil error among the worker results, as recorded by
errgroup's once-guarded error slot. -/
def firstWorkerError : List (Option NiceError) → Option NiceError
  | [] => none
  | some e :: _ => some e
  | none :: rest => firstWorkerError rest

/-- `DownloadInChunksDeadline`'s tail: `if err := g.Wait(); err != nil
{ return fmt.Errorf("failed to download %q in chunks: %w", url, err) }`. -/
def downloadInChunksOutcome (url : String) (workerResults : List (Option NiceError)) :
    Option NiceError :=
  match firstWorkerError workerResults with
  | some e => some (NiceError.chunkedDownloadFailed url e)
  | none => none

theorem firstWorkerError_none_iff (results : List (Option NiceError)) :
    firstWorkerError results = none ↔ ∀ r ∈ results, r = none := by
  induction results with
  | nil => simp [firstWorkerError]
  | cons hd tl ih =>
    cases hd with
    | none => simp [firstWorkerError, ih]
    | some e => simp [firstWorkerError]

theorem firstWorkerError_skip_none :
    ∀ (pre : List (Option NiceError)) (e : NiceError) (rest : List (Option NiceError)),
      (∀ r ∈ pre, r = none) →
      firstWorkerError (pre ++ some e :: rest) = some e := by
  intro pre
  induction pre with
  | nil =>
    intro e rest _
    simp [firstWorkerError]
  | cons hd tl ih =>
    intro e rest hpre
    have hhd : hd = none := hpre hd (List.mem_cons_self hd tl)
    subst hhd
    have htl : ∀ r ∈ tl, r = none := fun r hr => hpre r (List.mem_cons_of_mem none hr)
    simp only [List.cons_append, firstWorkerError]
    exact ih e rest htl

theorem downloadInChunksOutcome_none_iff (url : String)
    (results : List (Option NiceError)) :
    downloadInChunksOutcome url results = none ↔ firstWorkerError results = none := by
  unfold downloadInChunksOutcome
  cases hfe : firstWorkerError results <;> simp

/-- C8.  The aggregation over the complete, completion-ordered list of worker
results: the chunked downloader succeeds iff no worker returned an error, and
otherwise returns the first observed worker error wrapped with the URL —
regardless of how many later workers also failed. -/
theorem downloadInChunks_first_error_wins (url : String)
    (results : List (Option NiceError)) :
    (downloadInChunksOutcome url results = none ↔ ∀ r ∈ results, r = none)
    ∧ (∀ pre e rest, results = pre ++ some e :: rest → (∀ r ∈ pre, r = none) →
        downloadInChunksOutcome url results
          = some (NiceError.chunkedDownloadFailed url e)) := by
  constructor
  · exact (downloadInChunksOutcome_none_iff url results).trans
      (firstWorkerError_none_iff results)
  · intro pre e rest hsplit hpre
    subst hsplit
    unfold downloadInChunksOutcome
    rw [firstWorkerError_skip_none pre e rest hpre]

/-- Witness for `downloadInChunks_first_error_wins`: two workers fail, the
first failure wins; an all-nil result list aggregates to success. -/
theorem downloadInChunks_first_error_wins_witness :
    downloadInChunksOutcome "u"
        [none, some NiceError.tooManyRedirects, some NiceError.missingLocationHeader]
      = some (NiceError.chunkedDownloadFailed "u" NiceError.tooManyRedirects)
    ∧ downloadInChunksOutcome "u" [none, none] = none := by
  constructor
  · exact (downloadInChunks_first_error_wins "u" _).2 [none] NiceError.tooManyRedirects
      [some NiceError.missingLocationHeader] rfl (by simp)
  · exact (downloadInChunks_first_error_wins "u" [none, none]).1.mpr (by simp)

/-! ## C9: the feed loop with a deadline already in the past -/

/-- With an unarmed timer (nil timeout channel), the scheduler oracle for the
timeout branch is irrelevant: the branch can never be taken. -/
theorem feedLoop_unarmed_stop_irrelevant (length c : Int) (stop1 stop2 : Nat → Bool) :
    ∀ (fuel n : Nat) (s e : Int),
      feedLoop length c false stop1 fuel n s e = feedLoop length c false stop2 fuel n s e := by
  intro fuel
  induction fuel with
  | zero =>
    intro n s e
    rfl
  | succ fuel ih =>
    intro n s e
    simp only [feedLoop, Bool.false_and]
    by_cases he : e < length
    · simp [he, ih]
    · simp [he]

/-- C9 (divergence witness).  For a deadline at or before the current time,
`DownloadInChunksDeadline` arms no timer (`-time.Since(deadline) ≤ 0` leaves
`timeout` a nil channel), so no scheduling of the `select` can ever take the
stop branch: the producer behaves exactly like the never-stopping producer
and never stops enqueueing early, contrary to the claim that a past deadline
stops the producer. -/
theorem downloadInChunks_past_deadline_never_stops (now deadline : Int)
    (hpast : deadline ≤ now) :
    timerArmed now deadline = false
    ∧ ∀ (stop : Nat → Bool) (length c : Int),
        feedRangesStopping length c (timerArmed now deadline) stop = feedRanges length c := by
  have harm : timerArmed now deadline = false := by
    simp only [timerArmed, decide_eq_false_iff_not, not_lt]
    omega
  refine ⟨harm, ?_⟩
  intro stop length c
  rw [harm]
  unfold feedRangesStopping feedRanges
  exact feedLoop_unarmed_stop_irrelevant length c stop (fun _ => false) _ _ _ _

/-- Witness for `downloadInChunks_past_deadline_never_stops` with the call
made 7 time units after the deadline. -/
theorem downloadInChunks_past_deadline_never_stops_witness :
    timerArmed 10 3 = false
    ∧ ∀ (stop : Nat → Bool) (length c : Int),
        feedRangesStopping length c (timerArmed 10 3) stop = feedRanges length c :=
  downloadInChunks_past_deadline_never_stops 10 3 (by decide)

/-! ## `WriterAtOffset` and `WriteBuffer` (writer.go) -/

/-- writer.go's `WriterAtOffset`: an `io.Writer` adapter over an
`io.WriterAt` fixed at a constant offset.  The underlying writer's mutable
state has type `σ`; its `WriteAt` implementation is passed explicitly as
`writeAt state bytes offset = (bytesWritten, newState)`.  Offsets are taken
nonnegative (Go would panic on a negative offset). -/
structure WriterAtOffset (σ : Type) where
  dst : σ
  offset : Nat

/-- Go: `func (w WriterAtOffset) Write(b []byte) (int, error)
{ return w.dst.WriteAt(b, w.offset) }` — forward to the underlying writer at
the construction offset, returning its result unchanged; the `offset` field
is never mutated. -/
def WriterAtOffset.write {σ : Type} (writeAt : σ → List Nat → Nat → Nat × σ)
    (w : WriterAtOffset σ) (b : List Nat) : Nat × WriterAtOffset σ :=
  ((writeAt w.dst b w.offset).1, ⟨(writeAt w.dst b w.offset).2, w.offset⟩)

/-- A body delivered through several successive `Write` calls on the same
`WriterAtOffset` (as `res.BodyWriteTo` does for a body larger than one copy
buffer). -/
def WriterAtOffset.writeMany {σ : Type} (writeAt : σ → List Nat → Nat → Nat × σ) :
    WriterAtOffset σ → List (List Nat) → WriterAtOffset σ
  | w, [] => w
  | w, b :: bs => WriterAtOffset.writeMany writeAt (WriterAtOffset.write writeAt w b).2 bs

/-- bytesutil.ExtendSlice as used by `WriteBuffer.WriteAt`: grow the slice to
length `n` (the calling site only ever grows; newly exposed bytes are
zeroed). -/
def extendSlice (dst : List Nat) (n : Nat) : List Nat :=
  dst ++ List.replicate (n - dst.length) 0

/-- writer.go's `WriteBuffer.WriteAt`: grow the buffer when
`off + len(p) > len(dst)`, then `copy(dst[off:], p)`, returning the count
copied (after growth the buffer always has room for all of `p`). -/
def writeBufferWriteAt (dst p : List Nat) (off : Nat) : Nat × List Nat :=
  let dst2 := if dst.length < off + p.length then extendSlice dst (off + p.length) else dst
  (min p.length (dst2.length - off), dst2.take off ++ p ++ dst2.drop (off + p.length))

/-- C10.  Every `Write` on a `WriterAtOffset` forwards to the underlying
writer's `WriteAt` at the constant construction offset and returns its count
unchanged, and the offset never advances across successive `Write` calls:
a body delivered through several `Write` calls lands repeatedly at the same
start position (for the `WriteBuffer` sink, `[[1,2],[3,4]]` written at
offset `0` yields `[3,4]`, not the consecutive `[1,2,3,4]`). -/
theorem writerAtOffset_constant_offset :
    (∀ (σ : Type) (writeAt : σ → List Nat → Nat → Nat × σ) (w : WriterAtOffset σ)
        (b : List Nat),
      (WriterAtOffset.write writeAt w b).1 = (writeAt w.dst b w.offset).1
        ∧ (WriterAtOffset.write writeAt w b).2.offset = w.offset)
    ∧ (∀ (σ : Type) (writeAt : σ → List Nat → Nat → Nat × σ) (w : WriterAtOffset σ)
        (bs : List (List Nat)),
      (WriterAtOffset.writeMany writeAt w bs).offset = w.offset
        ∧ (WriterAtOffset.writeMany writeAt w bs).dst
            = bs.foldl (fun d b => (writeAt d b w.offset).2) w.dst)
    ∧ ((WriterAtOffset.writeMany writeBufferWriteAt ⟨[], 0⟩ [[1, 2], [3, 4]]).dst = [3, 4]
        ∧ (WriterAtOffset.writeMany writeBufferWriteAt ⟨[], 0⟩ [[1, 2], [3, 4]]).dst
            ≠ [1, 2, 3, 4]) := by
  refine ⟨fun σ writeAt w b => ⟨rfl, rfl⟩, ?_, by decide, by decide⟩
  intro σ writeAt w bs
  induction bs generalizing w with
  | nil => exact ⟨rfl, rfl⟩
  | cons b bs ih =>
    simp only [WriterAtOffset.writeMany, WriterAtOffset.write, List.foldl]
    exact ⟨(ih _).1, (ih _).2⟩
